import Mathlib

/-
Verification development for the PDF outline-inference engine of the
LOCAL_PDF_EXPLORER_MS repository.

Embedded components:
  - the automatic outline builder, from PDFBookmarkModelV4.auto_generate_toc
    (typography profiling pass, heading size and level mapper, page scan with
    run merging, per-page fallback, dedup);
  - the flat-to-nested outline tree reconstructor, from
    PDFEngine.extract_toc (the PDFRenderer.get_toc variant is the same
    algorithm without the destination offset and is covered by the same
    embedding, as the specification treats the duplicated variants as one
    canonical implementation).

Modelling conventions:
  - Python str is modelled as List Char (a sequence of characters);
  - Python float font sizes are modelled as exact rationals;
  - Python round (banker's rounding, round half to even) is modelled by
    pyRound below;
  - a page whose text extraction raises is modelled as a none page;
  - Python dicts used as insertion-ordered counting maps are modelled as
    association lists that preserve first-insertion order, so that
    max(counts, key=counts.get) picks the first key attaining the maximum,
    exactly as CPython does;
  - the mutable node dicts of the reconstructor, whose children lists are
    mutated through references held on the ancestor stack, are modelled
    functionally: the stack holds each open node together with the children
    accumulated so far, and a node is attached to its parent (or emitted as
    a root) at the moment it is popped; this performs exactly the
    assignments the Python code performs eagerly through aliasing.
-/

/-- Python str modelled as a character sequence. -/
abbrev PyStr := List Char

/-- Python str.strip: remove leading and trailing whitespace. -/
def pyStrip (s : PyStr) : PyStr :=
  ((s.dropWhile Char.isWhitespace).reverse.dropWhile Char.isWhitespace).reverse

/-- Python "sep".join for a single-space separator. -/
def joinSpace : List PyStr → PyStr
  | [] => []
  | [x] => x
  | x :: xs => x ++ ' ' :: joinSpace xs

/-- Python round on a real value: round half to even (banker's rounding). -/
def pyRound (x : ℚ) : ℤ :=
  if x - ⌊x⌋ < 1/2 then ⌊x⌋
  else if ⌊x⌋ + 1 - x < 1/2 then ⌊x⌋ + 1
  else if ⌊x⌋ % 2 = 0 then ⌊x⌋ else ⌊x⌋ + 1

/-- Source round05: round(x * 2.0) / 2.0, rounding to the nearest half point. -/
def round05 (x : ℚ) : ℚ := (pyRound (x * 2) : ℚ) / 2

/-- Python slice lst[i:] with a possibly negative int index. -/
def pyDropFrom (i : ℤ) (l : List α) : List α :=
  if 0 ≤ i then l.drop i.toNat else l.drop ((l.length : ℤ) + i).toNat

/-- Python slice lst[:i] with a possibly negative int index. -/
def pyTake (i : ℤ) (l : List α) : List α :=
  if 0 ≤ i then l.take i.toNat else l.take ((l.length : ℤ) + i).toNat

/-- Color keys: the source uses repr(span color) strings; we use an abstract
comparable key. -/
abbrev ColorKey := Nat

/-- Increment a key of an insertion-ordered counting dict (Python
counts[k] = counts.get(k, 0) + 1 on an insertion-ordered dict). -/
def bump (m : List (ColorKey × Nat)) (k : ColorKey) : List (ColorKey × Nat) :=
  match m with
  | [] => [(k, 1)]
  | (k2, c) :: rest => if k2 = k then (k2, c + 1) :: rest else (k2, c) :: bump rest k

/-- Python max(counts, key=counts.get): the first key in iteration order
attaining the maximal count; None when the dict is empty. -/
def maxKey (m : List (ColorKey × Nat)) : Option ColorKey :=
  match m with
  | [] => none
  | p :: rest => some ((rest.foldl (fun best q => if q.2 > best.2 then q else best) p).1)

/-- Statistical median as computed by the source: sort, take the middle
element, or the mean of the two middle elements for an even count. -/
def median (sizes : List ℚ) : ℚ :=
  let s := sizes.insertionSort (· ≤ ·)
  let mid := s.length / 2
  if s.length % 2 == 0 then (s.getD (mid - 1) 0 + s.getD mid 0) / 2
  else s.getD mid 0

/-- A text span: run of text with one font size and one color. -/
structure Span where
  text : PyStr
  size : ℚ
  color : ColorKey
deriving DecidableEq

/-- A line is a list of spans. -/
structure Line where
  spans : List Span
deriving DecidableEq

/-- A block is a list of lines. -/
structure Block where
  lines : List Line
deriving DecidableEq

/-- The text dict of one page: its blocks. -/
abbrev PageDict := List Block

/-- A document: one entry per page; none models a page whose text
extraction raised and is skipped. -/
abbrev Doc := List (Option PageDict)

/-- Pass 1 span filter: strip the text, skip if empty or without an
alphabetic character, then keep the size if it is positive. -/
def spanSizeIfUsable (spn : Span) : Option ℚ :=
  let txt := pyStrip spn.text
  if txt.isEmpty then none
  else if !(txt.any Char.isAlpha) then none
  else if decide (spn.size > 0) then some spn.size else none

/-- Sizes collected from one page dict. -/
def pageSizes (blocks : PageDict) : List ℚ :=
  blocks.flatMap (fun b => b.lines.flatMap (fun l => l.spans.filterMap spanSizeIfUsable))

/-- Pass 1: all usable font sizes of the document, in document order. -/
def allSizes (doc : Doc) : List ℚ :=
  doc.flatMap (fun pg => match pg with | none => [] | some blocks => pageSizes blocks)

/-- Body font size: the median of all collected sizes. -/
def bodySizeOf (doc : Doc) : ℚ := median (allSizes doc)

/-- sorted(set(round05(s) for s in all_sizes)): distinct rounded sizes in
ascending order. -/
def uniqueSizesOf (doc : Doc) : List ℚ :=
  (((allSizes doc).map round05).dedup).insertionSort (· ≤ ·)

/-- The heading size table: distinct rounded sizes above
max(body_size, font_threshold); if none, the slice unique_sizes[-max_levels:];
then sorted descending and truncated to max_levels entries.  The level of the
i-th entry is i+1. -/
def headingSizesOf (doc : Doc) (fontThreshold : ℚ) (maxLevels : ℤ) : List ℚ :=
  let uniqueSizes := uniqueSizesOf doc
  let threshold := max (bodySizeOf doc) fontThreshold
  let hs := uniqueSizes.filter (fun s => decide (s > threshold))
  let hs := if hs.isEmpty then pyDropFrom (-maxLevels) uniqueSizes else hs
  pyTake maxLevels (hs.insertionSort (· ≥ ·))

/-- The size-based rule of the outline builder: scan the table in stored
(descending) order and return index + 1 of the first size that sRounded
meets or exceeds.  This is the loop over heading_sizes with break, together
with the size_to_level lookup, whose value for the i-th table entry is i+1. -/
def findLevel (headingSizes : List ℚ) (sRounded : ℚ) (i : Nat) : Option Nat :=
  match headingSizes with
  | [] => none
  | hs :: rest => if decide (sRounded ≥ hs) then some (i + 1) else findLevel rest sRounded (i + 1)

/-- The inner loop of the color rule: first table entry whose size the line
meets at 0.9 tolerance, unrounded. -/
def findLevel09 (headingSizes : List ℚ) (maxSize : ℚ) (i : Nat) : Option Nat :=
  match headingSizes with
  | [] => none
  | hs :: rest =>
    if decide (maxSize ≥ hs * (9/10)) then some (i + 1) else findLevel09 rest maxSize (i + 1)

/-- Pass 1b: counts of colors among usable-text spans whose size is within
1.0 of the body size. -/
def bodyColorCountsOf (doc : Doc) (bodySize : ℚ) : List (ColorKey × Nat) :=
  doc.foldl (fun m pg =>
    match pg with
    | none => m
    | some blocks => blocks.foldl (fun m b =>
        b.lines.foldl (fun m l =>
          l.spans.foldl (fun m spn =>
            let txt := pyStrip spn.text
            if txt.isEmpty then m
            else if !(txt.any Char.isAlpha) then m
            else if decide (|spn.size - bodySize| ≤ 1) then bump m spn.color else m) m) m) m) []

/-- The dominant body color key, when any span was counted. -/
def bodyColorKeyOf (doc : Doc) : Option ColorKey :=
  maxKey (bodyColorCountsOf doc (bodySizeOf doc))

/-- A flat outline entry [level, title, page] as appended by the builder. -/
structure TocEntry where
  level : Nat
  title : PyStr
  page : Nat
deriving DecidableEq

/-- The dedup key (page_num, level, title) of an entry. -/
def keyOf (e : TocEntry) : Nat × Nat × PyStr := (e.page, e.level, e.title)

/-- The per-document context computed before the page scan. -/
structure BCtx where
  headingSizes : List ℚ
  bodySize : ℚ
  bodyColorKey : Option ColorKey

/-- The scan state: accumulated entries and dedup set, plus the per-page
fields page_best_size, page_best_text, page_best_color, page_had_heading,
current_title, current_level. -/
structure PState where
  toc : List TocEntry
  seen : List (Nat × Nat × PyStr)
  pageBestSize : ℚ
  pageBestText : Option PyStr
  pageBestColor : Option ColorKey
  pageHadHeading : Bool
  currentTitle : Option PyStr
  currentLevel : Option Nat

/-- Python truthiness of an optional string. -/
def optTruthy : Option PyStr → Bool
  | none => false
  | some t => !t.isEmpty

/-- flush_current: commit the pending heading as one entry if the title is
truthy and the level is set and the (page, level, title) key is new, then
reset both fields. -/
def flushCurrent (pageNum : Nat) (st : PState) : PState :=
  match st.currentTitle, st.currentLevel with
  | some t, some lv =>
    if t.isEmpty then { st with currentTitle := none, currentLevel := none }
    else
      let key := (pageNum, lv, t)
      if key ∈ st.seen then { st with currentTitle := none, currentLevel := none }
      else { st with toc := st.toc ++ [⟨lv, t, pageNum⟩], seen := key :: st.seen,
                     currentTitle := none, currentLevel := none }
  | _, _ => { st with currentTitle := none, currentLevel := none }

/-- Texts of the spans of a line that have non-empty text. -/
def lineTextParts (spans : List Span) : List PyStr :=
  (spans.filter (fun s => !s.text.isEmpty)).map Span.text

/-- Sizes contributed by the spans of a line that have non-empty text. -/
def lineSizes (spans : List Span) : List ℚ :=
  (spans.filter (fun s => !s.text.isEmpty)).map Span.size

/-- Per-line color counts, over spans with non-empty text. -/
def lineColorCounts (spans : List Span) : List (ColorKey × Nat) :=
  spans.foldl (fun m s => if s.text.isEmpty then m else bump m s.color) []

/-- The line text: span texts joined by single spaces, then stripped. -/
def lineTextOf (spans : List Span) : PyStr := pyStrip (joinSpace (lineTextParts spans))

/-- max(sizes) if sizes else 0.0. -/
def listMax (l : List ℚ) : ℚ :=
  match l with
  | [] => 0
  | x :: xs => xs.foldl max x

/-- The color-based fallback level: the deepest configured level, improved to
the first table entry whose size the line meets at 0.9 tolerance; level 1
when the table is empty. -/
def colorRuleLevel (headingSizes : List ℚ) (maxSize : ℚ) : Nat :=
  if headingSizes.isEmpty then 1
  else (findLevel09 headingSizes maxSize 0).getD headingSizes.length

/-- Heading classification of one line: the size rule first, otherwise the
color rule guarded by color difference and size at least 0.9 of body size. -/
def lineHeadingLevel (ctx : BCtx) (sRounded maxSize : ℚ) (lineColorKey : Option ColorKey) :
    Option Nat :=
  match findLevel ctx.headingSizes sRounded 0 with
  | some lv => some lv
  | none =>
    let isColorHeading := ctx.bodyColorKey.isSome && lineColorKey.isSome &&
      decide (lineColorKey ≠ ctx.bodyColorKey)
    if isColorHeading && decide (maxSize ≥ ctx.bodySize * (9/10)) then
      some (colorRuleLevel ctx.headingSizes maxSize)
    else none

/-- Process one line of a page: the body of the inner loop of pass 2. -/
def processLine (ctx : BCtx) (pageNum : Nat) (st : PState) (ln : Line) : PState :=
  if ln.spans.isEmpty then st
  else
    let lineText := lineTextOf ln.spans
    if lineText.isEmpty || !(lineText.any Char.isAlpha) then flushCurrent pageNum st
    else
      let maxSize := listMax (lineSizes ln.spans)
      let sRounded := round05 maxSize
      let lineColorKey := maxKey (lineColorCounts ln.spans)
      let st :=
        if decide (maxSize > st.pageBestSize) then
          { st with pageBestSize := maxSize, pageBestText := some lineText,
                    pageBestColor := lineColorKey }
        else st
      match lineHeadingLevel ctx sRounded maxSize lineColorKey with
      | none => flushCurrent pageNum st
      | some hl =>
        let st := { st with pageHadHeading := true }
        if optTruthy st.currentTitle && (st.currentLevel == some hl) then
          { st with currentTitle := st.currentTitle.map (fun t => t ++ ' ' :: lineText) }
        else
          let st := flushCurrent pageNum st
          { st with currentTitle := some lineText, currentLevel := some hl }

/-- The fallback level of the page heading synthesized from the best
candidate. -/
def pageFallbackLevel (headingSizes : List ℚ) (sRounded : ℚ) : Nat :=
  (findLevel headingSizes sRounded 0).getD (if headingSizes.isEmpty then 1 else headingSizes.length)

/-- Process one page: fresh per-page state, the nested loops over blocks and
lines, the end-of-page flush, and the per-page fallback heading. -/
def processPage (ctx : BCtx) (forcePageHeading : Bool)
    (acc : List TocEntry × List (Nat × Nat × PyStr)) (pageNum : Nat) (pg : Option PageDict) :
    List TocEntry × List (Nat × Nat × PyStr) :=
  match pg with
  | none => acc
  | some blocks =>
    let st0 : PState := ⟨acc.1, acc.2, 0, none, none, false, none, none⟩
    let st := blocks.foldl (fun st b => b.lines.foldl (processLine ctx pageNum) st) st0
    let st := flushCurrent pageNum st
    if forcePageHeading && !st.pageHadHeading && optTruthy st.pageBestText &&
        decide (st.pageBestSize > 0) then
      match st.pageBestText with
      | some t =>
        let sRounded := round05 st.pageBestSize
        let hl := pageFallbackLevel ctx.headingSizes sRounded
        let key := (pageNum, hl, t)
        if key ∈ st.seen then (st.toc, st.seen)
        else (st.toc ++ [⟨hl, t, pageNum⟩], key :: st.seen)
      | none => (st.toc, st.seen)
    else (st.toc, st.seen)

/-- The result of auto_generate_toc: the stored toc and the returned int. -/
structure GenResult where
  toc : List TocEntry
  ret : Nat
deriving DecidableEq

/-- auto_generate_toc: the full pipeline.  When no usable size exists the
stored toc is empty and 0 is returned; otherwise the page scan runs and the
length of the generated list is returned. -/
def autoGenerateToc (doc : Doc) (fontThreshold : ℚ) (maxLevels : ℤ)
    (forcePageHeading : Bool) : GenResult :=
  if (allSizes doc).isEmpty then ⟨[], 0⟩
  else
    let ctx : BCtx := ⟨headingSizesOf doc fontThreshold maxLevels, bodySizeOf doc,
      bodyColorKeyOf doc⟩
    let res := doc.enum.foldl (fun acc p => processPage ctx forcePageHeading acc (p.1 + 1) p.2)
      ([], [])
    ⟨res.1, res.1.length⟩

/-- get_toc returns (a copy of) the stored flat outline. -/
def getTocOf (r : GenResult) : List TocEntry := r.toc

/-
The flat-to-nested outline tree reconstructor, from PDFEngine.extract_toc.
-/

/-- One flat input item (level, title, page, optional destination carrying a
target vertical coordinate). -/
structure TocItem where
  lvl : ℤ
  title : PyStr
  page : ℤ
  dest : Option ℤ
deriving DecidableEq

/-- A nested outline node as built by the reconstructor. -/
inductive Node : Type where
  | mk (title : PyStr) (page : ℤ) (destY : ℤ) (children : List Node) (userNote : PyStr)

/-- Title of a node. -/
def Node.title : Node → PyStr
  | .mk t _ _ _ _ => t

/-- Page of a node. -/
def Node.page : Node → ℤ
  | .mk _ p _ _ _ => p

/-- Destination offset of a node. -/
def Node.destY : Node → ℤ
  | .mk _ _ y _ _ => y

/-- Children of a node. -/
def Node.children : Node → List Node
  | .mk _ _ _ cs _ => cs

/-- Extraction of the destination vertical coordinate: the coordinate when
present, otherwise 0. -/
def extractY (dest : Option ℤ) : ℤ := dest.getD 0

/-- The fresh node built for one incoming item. -/
def mkNode (it : TocItem) : Node := .mk it.title it.page (extractY it.dest) [] []

/-- parent_node["children"].append(node). -/
def attachChild : Node → Node → Node
  | .mk t p y cs u, c => .mk t p y (cs ++ [c]) u

/-- The reconstructor state: finished roots, and the ancestor stack of
(level, open node) pairs with the head as the top of the Python list. -/
structure RState where
  roots : List Node
  stack : List (ℤ × Node)

/-- The while loop: pop while the stack top has level >= the incoming level.
In the functional model each popped node is attached to the node below it at
that moment (the Python code attached it there when it was pushed); a popped
bottom becomes a finished root. -/
def popWhile (lvl : ℤ) : List (ℤ × Node) → List Node → List (ℤ × Node) × List Node
  | [], roots => ([], roots)
  | (l, n) :: rest, roots =>
    if decide (l ≥ lvl) then
      match rest with
      | [] => ([], roots ++ [n])
      | (l2, p) :: rest2 => popWhile lvl ((l2, attachChild p n) :: rest2) roots
    else ((l, n) :: rest, roots)
termination_by stack _ => stack.length

/-- Finalize a stack: perform every deferred attachment and emit the chain
bottom as the last root. -/
def collapse : List (ℤ × Node) → List Node → List Node
  | [], roots => roots
  | [(_, n)], roots => roots ++ [n]
  | (_, n) :: (l2, p) :: rest, roots => collapse ((l2, attachChild p n) :: rest) roots
termination_by stack _ => stack.length

/-- One step of the reconstructor loop over flat items. -/
def rstep (s : RState) (it : TocItem) : RState :=
  let node := mkNode it
  if it.lvl == 1 then
    { roots := collapse s.stack s.roots, stack := [(1, node)] }
  else
    let pr := popWhile it.lvl s.stack s.roots
    match pr.1 with
    | [] => { roots := pr.2, stack := [(it.lvl, node)] }
    | top :: rest => { roots := pr.2, stack := (it.lvl, node) :: top :: rest }

/-- extract_toc: fold the items, then finalize the remaining stack. -/
def extractToc (items : List TocItem) : List Node :=
  let s := items.foldl rstep ⟨[], []⟩
  collapse s.stack s.roots

mutual

/-- Pre-order flatten of a node at a given depth, emitting
(depth-as-level, title, page) triples. -/
def flatN (d : ℤ) : Node → List (ℤ × PyStr × ℤ)
  | .mk t p _ cs _ => (d, t, p) :: flatL (d + 1) cs

/-- Pre-order flatten of a forest at a given depth. -/
def flatL (d : ℤ) : List Node → List (ℤ × PyStr × ℤ)
  | [] => []
  | c :: cs => flatN d c ++ flatL d cs

end

mutual

/-- Number of nodes of a tree. -/
def countN : Node → Nat
  | .mk _ _ _ cs _ => 1 + countL cs

/-- Number of nodes of a forest. -/
def countL : List Node → Nat
  | [] => 0
  | c :: cs => countN c + countL cs

end

/-- Number of nodes held on a stack. -/
def countStack : List (ℤ × Node) → Nat
  | [] => 0
  | (_, n) :: r => countN n + countStack r

/-- Flatten of the part of the final output contributed by a stack, when the
stack is collapsed after the nodes already in roots: the bottom of the stack
is the rightmost root and each stack node is the last child of the one below
it. -/
def flatStackF : List (ℤ × Node) → ℤ → List (ℤ × PyStr × ℤ)
  | [], _ => []
  | (_, p) :: r, d => flatStackF r d ++ flatN (d + r.length) p

/-
Ghost-instrumented variant of the reconstructor, used only to state the
level/depth property of C2: it is the same algorithm, but each node also
records the nominal input level it was created from.  The erasure theorem
ties it to the source embedding extractToc.
-/

/-- A node annotated with the nominal level of the item it was built from. -/
inductive ANode : Type where
  | mk (lvl : ℤ) (title : PyStr) (page : ℤ) (destY : ℤ) (children : List ANode) (userNote : PyStr)

/-- Nominal level of an annotated node. -/
def ANode.lvl : ANode → ℤ
  | .mk l _ _ _ _ _ => l

/-- Children of an annotated node. -/
def ANode.children : ANode → List ANode
  | .mk _ _ _ _ cs _ => cs

mutual

/-- Drop the level annotation of a node. -/
def eraseA : ANode → Node
  | .mk _ t p y cs u => .mk t p y (eraseAL cs) u

/-- Drop the level annotations of a forest. -/
def eraseAL : List ANode → List Node
  | [] => []
  | c :: cs => eraseA c :: eraseAL cs

end

/-- The annotated fresh node for one item: records the item's level. -/
def amkNode (it : TocItem) : ANode := .mk it.lvl it.title it.page (extractY it.dest) [] []

/-- Annotated child attachment. -/
def aAttach : ANode → ANode → ANode
  | .mk l t p y cs u, c => .mk l t p y (cs ++ [c]) u

/-- Annotated reconstructor state. -/
structure ARState where
  roots : List ANode
  stack : List (ℤ × ANode)

/-- Annotated pop-while loop, same shape as popWhile. -/
def aPopWhile (lvl : ℤ) : List (ℤ × ANode) → List ANode → List (ℤ × ANode) × List ANode
  | [], roots => ([], roots)
  | (l, n) :: rest, roots =>
    if decide (l ≥ lvl) then
      match rest with
      | [] => ([], roots ++ [n])
      | (l2, p) :: rest2 => aPopWhile lvl ((l2, aAttach p n) :: rest2) roots
    else ((l, n) :: rest, roots)
termination_by stack _ => stack.length

/-- Annotated stack finalization, same shape as collapse. -/
def aCollapse : List (ℤ × ANode) → List ANode → List ANode
  | [], roots => roots
  | [(_, n)], roots => roots ++ [n]
  | (_, n) :: (l2, p) :: rest, roots => aCollapse ((l2, aAttach p n) :: rest) roots
termination_by stack _ => stack.length

/-- Annotated reconstructor step, same shape as rstep. -/
def aStep (s : ARState) (it : TocItem) : ARState :=
  let node := amkNode it
  if it.lvl == 1 then
    { roots := aCollapse s.stack s.roots, stack := [(1, node)] }
  else
    let pr := aPopWhile it.lvl s.stack s.roots
    match pr.1 with
    | [] => { roots := pr.2, stack := [(it.lvl, node)] }
    | top :: rest => { roots := pr.2, stack := (it.lvl, node) :: top :: rest }

/-- Annotated extract_toc. -/
def aExtractToc (items : List TocItem) : List ANode :=
  let s := items.foldl aStep ⟨[], []⟩
  aCollapse s.stack s.roots

/-- Well-nested level annotations: every child's nominal level is strictly
greater than its parent's, recursively. -/
inductive AOk : ANode → Prop where
  | intro (l : ℤ) (t : PyStr) (p : ℤ) (y : ℤ) (cs : List ANode) (u : PyStr)
      (hlt : ∀ c ∈ cs, l < c.lvl) (h : ∀ c ∈ cs, AOk c) : AOk (.mk l t p y cs u)

/-- Invariant of an annotated stack: each pair stores its node's nominal
level, every open node is well nested, and the levels strictly decrease from
the top of the stack (the head) to the bottom. -/
def StackOk (stack : List (ℤ × ANode)) : Prop :=
  (∀ pr ∈ stack, pr.2.lvl = pr.1 ∧ AOk pr.2) ∧
  stack.Pairwise (fun a b => b.1 < a.1)

/-
Claim-side definitions (written from the specification's words, for the
claims that compare the code's rule with the spec's formulation).
-/

/-- The smallest table size that the rounded dominant size meets or exceeds
(the literal reading of the specification sentence for the size rule). -/
def smallestQualifying (headingSizes : List ℚ) (s : ℚ) : Option ℚ :=
  (headingSizes.filter (fun h => decide (s ≥ h))).min?

/-- Level assigned by the claim's reading of the size rule: the level mapped
to the smallest qualifying size (its position in the table, plus one). -/
def claimSizeRuleLevel (headingSizes : List ℚ) (s : ℚ) : Option Nat :=
  (smallestQualifying headingSizes s).map (fun m => headingSizes.indexOf m + 1)

/-- The largest table size that the rounded dominant size meets or exceeds. -/
def largestQualifying (headingSizes : List ℚ) (s : ℚ) : Option ℚ :=
  (headingSizes.filter (fun h => decide (s ≥ h))).max?

/-- Level assigned by the amended reading of the size rule: the level mapped
to the largest qualifying size. -/
def amendedSizeRuleLevel (headingSizes : List ℚ) (s : ℚ) : Option Nat :=
  (largestQualifying headingSizes s).map (fun m => headingSizes.indexOf m + 1)

/-- The (level, title, page) triple of a flat item, the shape persisted by
the flat outline interchange format. -/
def tripleOf (it : TocItem) : ℤ × PyStr × ℤ := (it.lvl, it.title, it.page)

/-- Well-formedness of the tail of a flat outline relative to the previous
entry's level: each level is at least 1 (the flat outline interchange format
requires level >= 1) and at most one greater than its predecessor's. -/
def ChainLe : ℤ → List TocItem → Prop
  | _, [] => True
  | k, it :: rest => 1 ≤ it.lvl ∧ it.lvl ≤ k + 1 ∧ ChainLe it.lvl rest

/-- A well-formed flat outline: the first entry is at level 1 and every
later entry is at most one level deeper than its predecessor (levels are
at least 1, as the flat outline interchange format requires). -/
def WellFormedFlat : List TocItem → Prop
  | [] => True
  | it :: rest => it.lvl = 1 ∧ ChainLe 1 rest

/-- The list of levels [k, k-1, ..., 1]: the shape of the reconstructor's
stack levels while processing a well-formed input. -/
def countdown : Nat → List ℤ
  | 0 => []
  | k + 1 => ((k : ℤ) + 1) :: countdown k

/-- Flatten of everything a reconstructor state will contribute once
finalized: the finished roots followed by the collapsed stack. -/
def stateFlat (s : RState) : List (ℤ × PyStr × ℤ) :=
  flatL 1 s.roots ++ flatStackF s.stack 1

/-
Concrete documents and inputs used by counterexamples and witnesses.
-/

/-- A line consisting of one span. -/
def oneSpanLine (t : String) (s : ℚ) (c : ColorKey) : Line := ⟨[⟨t.toList, s, c⟩]⟩

/-- Document with a size-20 line, a size-16 line, and three size-10 body
lines, all on page 1 and in one color: the heading table becomes 20 at
level 1 and 16 at level 2. -/
def c1doc : Doc :=
  [some [⟨[oneSpanLine "Chap" 20 0, oneSpanLine "Sec" 16 0]⟩,
         ⟨[oneSpanLine "aaa" 10 0, oneSpanLine "bbb" 10 0, oneSpanLine "ccc" 10 0]⟩]]

/-- Document whose only text is one size-10 line on page 1. -/
def c5doc : Doc := [some [⟨[oneSpanLine "Title" 10 0]⟩]]

/-- Document with two consecutive size-20 lines reading Chapter and One
followed by three size-10 body lines, all on page 1. -/
def c7doc : Doc :=
  [some [⟨[oneSpanLine "Chapter" 20 0, oneSpanLine "One" 20 0]⟩,
         ⟨[oneSpanLine "alpha" 10 0, oneSpanLine "beta" 10 0, oneSpanLine "gamma" 10 0]⟩]]

/-- Document with no usable span: a digits-only span and an empty-text span,
plus a failing page. -/
def c9doc : Doc :=
  [some [Block.mk [Line.mk [⟨"123".toList, 5, 0⟩, ⟨"".toList, 12, 0⟩]]], none]

/-- A shorthand for reconstructor items in concrete statements. -/
def mkItem (l : ℤ) (t : String) (p : ℤ) : TocItem := ⟨l, t.toList, p, none⟩

/-- A concrete well-formed flat outline for the round-trip witness. -/
def c6items : List TocItem :=
  [mkItem 1 "A" 1, mkItem 2 "B" 2, mkItem 3 "C" 2, mkItem 2 "D" 3, mkItem 1 "E" 4]

/-- Context for the run-merging witness: table with the single size 20. -/
def c7ctx : BCtx := ⟨[20], 10, none⟩

/-- State with a pending level-1 heading titled Chapter. -/
def c7st : PState := ⟨[], [], 0, none, none, true, some "Chapter".toList, some 1⟩

/-- An incoming size-20 line reading One. -/
def c7line : Line := ⟨[⟨"One".toList, 20, 0⟩]⟩

theorem countL_append (a b : List Node) : countL (a ++ b) = countL a + countL b := by
  induction a with
  | nil => simp [countL]
  | cons c cs ih => simp [countL, ih]; ring

theorem countN_attach (p c : Node) : countN (attachChild p c) = countN p + countN c := by
  cases p with
  | mk t pg y cs u => simp [attachChild, countN, countL_append, countL]; ring

theorem countL_collapse (stack : List (ℤ × Node)) (roots : List Node) :
    countL (collapse stack roots) = countL roots + countStack stack := by
  induction stack, roots using collapse.induct with
  | case1 roots => simp [collapse, countStack]
  | case2 l n roots => simp [collapse, countStack, countL_append, countL]
  | case3 l n l2 p rest roots ih =>
    simp [collapse, ih, countStack, countN_attach]; ring

theorem countPop (lvl : ℤ) (stack : List (ℤ × Node)) (roots : List Node) :
    countL (popWhile lvl stack roots).2 + countStack (popWhile lvl stack roots).1 =
      countL roots + countStack stack := by
  induction stack, roots using popWhile.induct lvl with
  | case1 roots => simp [popWhile, countStack]
  | case2 l n roots hdec =>
    have h2 : lvl ≤ l := of_decide_eq_true hdec
    simp [popWhile, h2, countStack, countL_append, countL]
  | case3 l n roots hdec l2 p rest2 ih =>
    have h2 : lvl ≤ l := of_decide_eq_true hdec
    simp only [popWhile, h2, if_true, decide_eq_true_eq, ge_iff_le, if_pos]
    rw [ih]
    simp [countStack, countN_attach]; ring
  | case4 l n rest roots hdec =>
    have h2 : ¬ (lvl ≤ l) := by simpa using hdec
    rw [popWhile.eq_def]
    simp [h2, countStack]

theorem countN_mkNode (it : TocItem) : countN (mkNode it) = 1 := by
  simp [mkNode, countN, countL]

theorem count_rstep (s : RState) (it : TocItem) :
    countL (rstep s it).roots + countStack (rstep s it).stack =
      countL s.roots + countStack s.stack + 1 := by
  unfold rstep
  by_cases h : it.lvl == 1
  · simp [h, countStack, countL_collapse, countN_mkNode]
  · simp only [h, Bool.false_eq_true, if_false]
    have hp := countPop it.lvl s.stack s.roots
    rcases hpr : (popWhile it.lvl s.stack s.roots).1 with _ | ⟨top, rest⟩ <;>
      simp [hpr, countStack, countN_mkNode] at hp ⊢ <;> omega

theorem count_run (items : List TocItem) (s : RState) :
    countL ((items.foldl rstep s).roots) + countStack ((items.foldl rstep s).stack) =
      countL s.roots + countStack s.stack + items.length := by
  induction items generalizing s with
  | nil => simp
  | cons it rest ih =>
    simp only [List.foldl_cons, ih (rstep s it), count_rstep, List.length_cons]
    ring

/-- C3: for every flat input list, with any level values whatsoever, the
forest returned by the tree reconstructor of extract_toc contains exactly as
many nodes as there are input entries: no entry is dropped, none duplicated. -/
theorem C3_totality (items : List TocItem) : countL (extractToc items) = items.length := by
  unfold extractToc
  have h := count_run items ⟨[], []⟩
  simp [countL, countStack, countL_collapse] at h ⊢
  omega

/-- C10: the integer returned by auto_generate_toc equals the number of
entries of the flat outline it stores and get_toc returns: 0 in the
no-usable-text case and the length of the generated list otherwise. -/
theorem C10_return_count (doc : Doc) (ft : ℚ) (ml : ℤ) (fph : Bool) :
    (autoGenerateToc doc ft ml fph).ret = (getTocOf (autoGenerateToc doc ft ml fph)).length := by
  unfold autoGenerateToc getTocOf
  by_cases h : (allSizes doc).isEmpty <;> simp [h]

theorem spanUnusable (spn : Span)
    (h : ¬((pyStrip spn.text).any Char.isAlpha = true ∧ spn.size > 0)) :
    spanSizeIfUsable spn = none := by
  unfold spanSizeIfUsable
  by_cases h1 : (pyStrip spn.text).isEmpty
  · simp [h1]
  · simp only [h1, Bool.false_eq_true, if_false]
    by_cases h2 : (pyStrip spn.text).any Char.isAlpha
    · by_cases h3 : spn.size > 0
      · exact absurd ⟨h2, h3⟩ h
      · simp [h2, h3]
    · simp [h2]

/-- C9: for every document in which no span has both an alphabetic character
and a positive font size, outline generation returns the empty flat outline
(and the total function raises nothing): the NoTextFound condition is
absorbed as the empty result. -/
theorem C9_no_text (doc : Doc) (ft : ℚ) (ml : ℤ) (fph : Bool)
    (h : ∀ pg ∈ doc, ∀ blocks : PageDict, pg = some blocks →
      ∀ b ∈ blocks, ∀ l ∈ b.lines, ∀ spn ∈ l.spans,
        ¬((pyStrip spn.text).any Char.isAlpha = true ∧ spn.size > 0)) :
    (autoGenerateToc doc ft ml fph).toc = [] ∧ (autoGenerateToc doc ft ml fph).ret = 0 := by
  have hs : allSizes doc = [] := by
    simp only [allSizes, List.flatMap_eq_nil_iff]
    intro pg hpg
    cases pg with
    | none => rfl
    | some blocks =>
      simp only [pageSizes, List.flatMap_eq_nil_iff, List.filterMap_eq_nil_iff]
      intro b hb l hl spn hspn
      exact spanUnusable spn (h _ hpg blocks rfl b hb l hl spn hspn)
  unfold autoGenerateToc
  simp [hs]

/-- Witness for C9 at a concrete document with a digits-only span, an
empty span, and a failed page. -/
theorem C9_witness :
    (autoGenerateToc c9doc 14 3 true).toc = [] ∧ (autoGenerateToc c9doc 14 3 true).ret = 0 :=
  C9_no_text c9doc 14 3 true (by decide)

theorem eraseAL_append (a b : List ANode) : eraseAL (a ++ b) = eraseAL a ++ eraseAL b := by
  induction a with
  | nil => simp [eraseAL]
  | cons c cs ih => simp [eraseAL, ih]

theorem eraseA_attach (p c : ANode) : eraseA (aAttach p c) = attachChild (eraseA p) (eraseA c) := by
  cases p with
  | mk l t pg y cs u => simp [aAttach, eraseA, attachChild, eraseAL_append, eraseAL]

theorem eraseA_amk (it : TocItem) : eraseA (amkNode it) = mkNode it := by
  simp [amkNode, mkNode, eraseA, eraseAL]

theorem popWhile_erase (lvl : ℤ) (stack : List (ℤ × ANode)) (roots : List ANode) :
    popWhile lvl (stack.map (fun pr => (pr.1, eraseA pr.2))) (eraseAL roots) =
      ((aPopWhile lvl stack roots).1.map (fun pr => (pr.1, eraseA pr.2)),
       eraseAL (aPopWhile lvl stack roots).2) := by
  induction stack, roots using aPopWhile.induct lvl with
  | case1 roots => simp [popWhile, aPopWhile]
  | case2 l n roots hdec =>
    have h2 : lvl ≤ l := of_decide_eq_true hdec
    simp [popWhile, aPopWhile, h2, eraseAL_append, eraseAL]
  | case3 l n roots hdec l2 p rest2 ih =>
    have h2 : lvl ≤ l := of_decide_eq_true hdec
    rw [aPopWhile.eq_def]
    simp only [List.map_cons, popWhile, h2, decide_eq_true_eq, ge_iff_le, if_pos, if_true]
    rw [← eraseA_attach, ← ih]
    simp
  | case4 l n rest roots hdec =>
    have h2 : ¬ (lvl ≤ l) := by simpa using hdec
    rw [popWhile.eq_def, aPopWhile.eq_def]
    simp [h2]

theorem collapse_erase (stack : List (ℤ × ANode)) (roots : List ANode) :
    collapse (stack.map (fun pr => (pr.1, eraseA pr.2))) (eraseAL roots) =
      eraseAL (aCollapse stack roots) := by
  induction stack, roots using aCollapse.induct with
  | case1 roots => simp [collapse, aCollapse]
  | case2 l n roots => simp [collapse, aCollapse, eraseAL_append, eraseAL]
  | case3 l n l2 p rest roots ih =>
    rw [aCollapse.eq_def]
    simp only [List.map_cons, collapse]
    rw [← eraseA_attach, ← ih]
    simp

theorem rstep_erase (s : ARState) (it : TocItem) :
    rstep ⟨eraseAL s.roots, s.stack.map (fun pr => (pr.1, eraseA pr.2))⟩ it =
      ⟨eraseAL (aStep s it).roots, (aStep s it).stack.map (fun pr => (pr.1, eraseA pr.2))⟩ := by
  unfold rstep aStep
  by_cases h : it.lvl == 1
  · simp [h, collapse_erase, eraseA_amk]
  · simp only [h, Bool.false_eq_true, if_false]
    have hp := popWhile_erase it.lvl s.stack s.roots
    rcases hpr : (aPopWhile it.lvl s.stack s.roots).1 with _ | ⟨top, rest⟩ <;>
      simp [hpr] at hp <;> simp [hp, hpr, eraseA_amk]

theorem run_erase (items : List TocItem) (s : ARState) :
    items.foldl rstep ⟨eraseAL s.roots, s.stack.map (fun pr => (pr.1, eraseA pr.2))⟩ =
      ⟨eraseAL ((items.foldl aStep s).roots),
       ((items.foldl aStep s).stack).map (fun pr => (pr.1, eraseA pr.2))⟩ := by
  induction items generalizing s with
  | nil => simp
  | cons it rest ih =>
    simp only [List.foldl_cons, rstep_erase s it, ih (aStep s it)]

theorem aAttach_lvl (p c : ANode) : (aAttach p c).lvl = p.lvl := by
  cases p with
  | mk l t pg y cs u => simp [aAttach, ANode.lvl]

theorem aAttach_ok (p c : ANode) (hp : AOk p) (hc : AOk c) (hlt : p.lvl < c.lvl) :
    AOk (aAttach p c) := by
  cases p with
  | mk l t pg y cs u =>
    cases hp with
    | intro _ _ _ _ _ _ hlt0 h0 =>
      refine AOk.intro _ _ _ _ _ _ ?_ ?_ <;> intro x hx <;> rcases List.mem_append.1 hx with h | h
      · exact hlt0 x h
      · simp at h; subst h; simpa [ANode.lvl] using hlt
      · exact h0 x h
      · simp at h; subst h; exact hc

theorem amk_ok (it : TocItem) : AOk (amkNode it) := by
  refine AOk.intro _ _ _ _ _ _ ?_ ?_ <;> simp [amkNode]

theorem aPopWhile_ok (lvl : ℤ) (stack : List (ℤ × ANode)) (roots : List ANode)
    (hs : StackOk stack) (hr : ∀ r ∈ roots, AOk r) :
    StackOk (aPopWhile lvl stack roots).1 ∧ (∀ r ∈ (aPopWhile lvl stack roots).2, AOk r) ∧
      (∀ top ∈ (aPopWhile lvl stack roots).1.head?, top.1 < lvl) := by
  induction stack, roots using aPopWhile.induct lvl with
  | case1 roots =>
    simp only [aPopWhile]
    exact ⟨⟨by simp, by simp⟩, hr, by simp⟩
  | case2 l n roots hdec =>
    have h2 : lvl ≤ l := of_decide_eq_true hdec
    rw [aPopWhile.eq_def]
    simp only [h2, decide_eq_true_eq, ge_iff_le, if_pos, if_true]
    refine ⟨⟨by simp, by simp⟩, ?_, by simp⟩
    intro r hrm
    rcases List.mem_append.1 hrm with h | h
    · exact hr r h
    · simp at h; subst h; exact (hs.1 (l, r) (by simp)).2
  | case3 l n roots hdec l2 p rest2 ih =>
    have h2 : lvl ≤ l := of_decide_eq_true hdec
    rw [aPopWhile.eq_def]
    simp only [h2, decide_eq_true_eq, ge_iff_le, if_pos, if_true]
    apply ih
    · obtain ⟨hmem, hpw⟩ := hs
      constructor
      · intro pr hpr
        rcases List.mem_cons.1 hpr with h | h
        · subst h
          constructor
          · rw [aAttach_lvl]
            exact (hmem (l2, p) (by simp)).1
          · apply aAttach_ok
            · exact (hmem (l2, p) (by simp)).2
            · exact (hmem (l, n) (by simp)).2
            · rw [(hmem (l2, p) (by simp)).1, (hmem (l, n) (by simp)).1]
              exact (List.pairwise_cons.1 hpw).1 (l2, p) (by simp)
        · exact hmem pr (by simp [h])
      · have := (List.pairwise_cons.1 hpw).2
        rw [List.pairwise_cons] at this ⊢
        exact ⟨fun x hx => this.1 x hx, this.2⟩
    · exact hr
  | case4 l n rest roots hdec =>
    have h2 : ¬ (lvl ≤ l) := by simpa using hdec
    rw [aPopWhile.eq_def]
    simp only [h2, decide_eq_true_eq, ge_iff_le, if_neg, if_false]
    refine ⟨hs, hr, ?_⟩
    intro top htop
    simp at htop
    subst htop
    omega

theorem aCollapse_ok (stack : List (ℤ × ANode)) (roots : List ANode)
    (hs : StackOk stack) (hr : ∀ r ∈ roots, AOk r) :
    ∀ r ∈ aCollapse stack roots, AOk r := by
  induction stack, roots using aCollapse.induct with
  | case1 roots => simpa [aCollapse] using hr
  | case2 l n roots =>
    rw [aCollapse.eq_def]
    intro r hrm
    rcases List.mem_append.1 hrm with h | h
    · exact hr r h
    · simp at h; subst h; exact (hs.1 (l, r) (by simp)).2
  | case3 l n l2 p rest roots ih =>
    rw [aCollapse.eq_def]
    apply ih
    · obtain ⟨hmem, hpw⟩ := hs
      constructor
      · intro pr hpr
        rcases List.mem_cons.1 hpr with h | h
        · subst h
          refine ⟨by rw [aAttach_lvl]; exact (hmem (l2, p) (by simp)).1, ?_⟩
          apply aAttach_ok
          · exact (hmem (l2, p) (by simp)).2
          · exact (hmem (l, n) (by simp)).2
          · rw [(hmem (l2, p) (by simp)).1, (hmem (l, n) (by simp)).1]
            exact (List.pairwise_cons.1 hpw).1 (l2, p) (by simp)
        · exact hmem pr (by simp [h])
      · have := (List.pairwise_cons.1 hpw).2
        rw [List.pairwise_cons] at this ⊢
        exact ⟨fun x hx => this.1 x hx, this.2⟩
    · exact hr

theorem aStep_ok (s : ARState) (it : TocItem)
    (hr : ∀ r ∈ s.roots, AOk r) (hs : StackOk s.stack) :
    (∀ r ∈ (aStep s it).roots, AOk r) ∧ StackOk (aStep s it).stack := by
  unfold aStep
  by_cases h : it.lvl == 1
  · simp only [h, if_true]
    refine ⟨aCollapse_ok s.stack s.roots hs hr, ⟨?_, by simp⟩⟩
    intro pr hpr
    simp at hpr
    subst hpr
    exact ⟨by simp [amkNode, ANode.lvl, eq_of_beq h], amk_ok it⟩
  · simp only [h, Bool.false_eq_true, if_false]
    obtain ⟨hs2, hr2, hhead⟩ := aPopWhile_ok it.lvl s.stack s.roots hs hr
    rcases hpr : (aPopWhile it.lvl s.stack s.roots).1 with _ | ⟨top, rest⟩
    · simp only [hpr]
      refine ⟨hr2, ⟨?_, by simp⟩⟩
      intro pr hpr2
      simp at hpr2
      subst hpr2
      exact ⟨by simp [amkNode, ANode.lvl], amk_ok it⟩
    · simp only [hpr]
      rw [hpr] at hs2 hhead
      refine ⟨hr2, ⟨?_, ?_⟩⟩
      · intro pr hpr2
        rcases List.mem_cons.1 hpr2 with hh | hh
        · subst hh
          exact ⟨by simp [amkNode, ANode.lvl], amk_ok it⟩
        · exact hs2.1 pr hh
      · rw [List.pairwise_cons]
        refine ⟨?_, hs2.2⟩
        intro pr hpr2
        have htop : top.1 < it.lvl := hhead top (by simp)
        rcases List.mem_cons.1 hpr2 with hh | hh
        · subst hh; exact htop
        · have := (List.pairwise_cons.1 hs2.2).1 pr hh
          omega

theorem run_ok (items : List TocItem) (s : ARState)
    (hr : ∀ r ∈ s.roots, AOk r) (hs : StackOk s.stack) :
    (∀ r ∈ (items.foldl aStep s).roots, AOk r) ∧ StackOk ((items.foldl aStep s).stack) := by
  induction items generalizing s with
  | nil => exact ⟨hr, hs⟩
  | cons it rest ih =>
    simp only [List.foldl_cons]
    have := aStep_ok s it hr hs
    exact ih (aStep s it) this.1 this.2

/-- C2: the tree reconstructor processes flat entries in input order with
the ancestor stack exactly as the rstep and popWhile definitions state: a
level-1 entry becomes a new root and resets the stack; any other entry pops
the stack while its top's level is at least the incoming level, then
attaches below the remaining top, or becomes a new root with a reset stack
when the popping emptied it.  Consequently a parent node's nominal level is
always strictly smaller than its child's: the level-annotated run
aExtractToc, which erases to the source forest extractToc for every input,
yields only forests in which every child's recorded nominal level strictly
exceeds its parent's (the AOk predicate). -/
theorem C2_reconstructor (items : List TocItem) :
    eraseAL (aExtractToc items) = extractToc items ∧ ∀ r ∈ aExtractToc items, AOk r := by
  constructor
  · unfold extractToc aExtractToc
    have h := run_erase items ⟨[], []⟩
    simp only [eraseAL, List.map_nil] at h
    rw [h, collapse_erase]
  · unfold aExtractToc
    have h := run_ok items ⟨[], []⟩ (by simp) ⟨by simp, by simp⟩
    exact aCollapse_ok _ _ h.2 h.1

theorem flatL_append (d : ℤ) (a b : List Node) : flatL d (a ++ b) = flatL d a ++ flatL d b := by
  induction a with
  | nil => simp [flatL]
  | cons c cs ih => simp [flatL, ih]

theorem flatN_attach (d : ℤ) (p c : Node) :
    flatN d (attachChild p c) = flatN d p ++ flatN (d + 1) c := by
  cases p with
  | mk t pg y cs u => simp [attachChild, flatN, flatL_append, flatL]

theorem collapse_flat (stack : List (ℤ × Node)) (roots : List Node) (d : ℤ) :
    flatL d (collapse stack roots) = flatL d roots ++ flatStackF stack d := by
  induction stack, roots using collapse.induct with
  | case1 roots => simp [collapse, flatStackF]
  | case2 l n roots => simp [collapse, flatStackF, flatL_append, flatL]
  | case3 l n l2 p rest roots ih =>
    rw [collapse.eq_def]
    simp only [ih, flatStackF, List.length_cons]
    rw [flatN_attach]
    have harith : (d + ↑rest.length) + 1 = d + (↑rest.length + 1 : ℤ) := by ring
    simp [harith]

theorem popWhile_flat (lvl : ℤ) (stack : List (ℤ × Node)) (roots : List Node) (d : ℤ) :
    flatL d (popWhile lvl stack roots).2 ++ flatStackF (popWhile lvl stack roots).1 d =
      flatL d roots ++ flatStackF stack d := by
  induction stack, roots using popWhile.induct lvl with
  | case1 roots => simp [popWhile, flatStackF]
  | case2 l n roots hdec =>
    have h2 : lvl ≤ l := of_decide_eq_true hdec
    simp [popWhile, h2, flatStackF, flatL_append, flatL]
  | case3 l n roots hdec l2 p rest2 ih =>
    have h2 : lvl ≤ l := of_decide_eq_true hdec
    rw [popWhile.eq_def]
    simp only [h2, decide_eq_true_eq, ge_iff_le, if_pos, if_true]
    rw [ih]
    simp only [flatStackF, List.length_cons]
    rw [flatN_attach]
    have harith : (d + ↑rest2.length) + 1 = d + (↑rest2.length + 1 : ℤ) := by ring
    simp [harith]
  | case4 l n rest roots hdec =>
    have h2 : ¬ (lvl ≤ l) := by simpa using hdec
    rw [popWhile.eq_def]
    simp [h2]

theorem countdown_length (k : Nat) : (countdown k).length = k := by
  induction k with
  | zero => simp [countdown]
  | succ m ih => simp [countdown, ih]

theorem popWhile_countdown (lvl : ℤ) (stack : List (ℤ × Node)) (roots : List Node) (k : ℕ)
    (hc : stack.map Prod.fst = countdown k) (h1 : 2 ≤ lvl) (h2 : lvl ≤ k + 1) :
    (popWhile lvl stack roots).1.map Prod.fst = countdown (lvl.toNat - 1) ∧
      (popWhile lvl stack roots).1 ≠ [] := by
  induction stack, roots using popWhile.induct lvl generalizing k with
  | case1 roots =>
    exfalso
    cases k with
    | zero => omega
    | succ m => simp [countdown] at hc
  | case2 l n roots hdec =>
    exfalso
    cases k with
    | zero => simp [countdown] at hc
    | succ m =>
      cases m with
      | zero =>
        simp [countdown] at hc
        have h3 : lvl ≤ l := of_decide_eq_true hdec
        omega
      | succ m2 => simp [countdown] at hc
  | case3 l n roots hdec l2 p rest2 ih =>
    have h3 : lvl ≤ l := of_decide_eq_true hdec
    rw [popWhile.eq_def]
    simp only [h3, decide_eq_true_eq, ge_iff_le, if_pos, if_true]
    cases k with
    | zero => simp [countdown] at hc
    | succ m =>
      simp only [countdown, List.map_cons] at hc
      injection hc with hl htl
      apply ih (k := m)
      · exact htl
      · omega
  | case4 l n rest roots hdec =>
    have h3 : ¬ (lvl ≤ l) := by simpa using hdec
    rw [popWhile.eq_def]
    simp only [h3, decide_eq_true_eq, ge_iff_le, if_neg, if_false]
    cases k with
    | zero => simp [countdown] at hc
    | succ m =>
      simp only [countdown, List.map_cons] at hc
      injection hc with hl htl
      have : lvl.toNat - 1 = m + 1 := by omega
      rw [this]
      refine ⟨?_, by simp⟩
      simp [countdown, hl, htl]

theorem flatN_mkNode (d : ℤ) (it : TocItem) :
    flatN d (mkNode it) = [(d, it.title, it.page)] := by
  simp [mkNode, flatN, flatL]

theorem countdown_cons (j : ℕ) (h : 1 ≤ j) : countdown j = (j : ℤ) :: countdown (j - 1) := by
  cases j with
  | zero => omega
  | succ m => simp [countdown]

theorem rstep_flat (s : RState) (it : TocItem) (k : ℕ)
    (hc : s.stack.map Prod.fst = countdown k) (h1 : 1 ≤ it.lvl) (h2 : it.lvl ≤ k + 1) :
    stateFlat (rstep s it) = stateFlat s ++ [(it.lvl, it.title, it.page)] ∧
      (rstep s it).stack.map Prod.fst = countdown it.lvl.toNat := by
  unfold rstep
  by_cases h : it.lvl == 1
  · have hl : it.lvl = 1 := eq_of_beq h
    simp only [h, if_true]
    constructor
    · simp only [stateFlat, flatStackF, List.length_nil]
      rw [collapse_flat]
      have : ((1 : ℤ) + ((List.length ([] : List (ℤ × Node))) : ℤ)) = 1 := by simp
      simp [flatN_mkNode, hl]
    · have : it.lvl.toNat = 1 := by omega
      simp [this, countdown, hl]
  · have hne : it.lvl ≠ 1 := by simpa using h
    have h2l : 2 ≤ it.lvl := by omega
    simp only [h, Bool.false_eq_true, if_false]
    obtain ⟨hcd, hnonempty⟩ := popWhile_countdown it.lvl s.stack s.roots k hc h2l h2
    have hflat := popWhile_flat it.lvl s.stack s.roots 1
    rcases hpr : (popWhile it.lvl s.stack s.roots).1 with _ | ⟨top, rest⟩
    · exact absurd hpr hnonempty
    · rw [hpr] at hcd hflat
      have hlen : ((top :: rest).length : ℤ) = it.lvl - 1 := by
        have : (top :: rest).length = (countdown (it.lvl.toNat - 1)).length := by
          rw [← hcd, List.length_map]
        rw [this, countdown_length]
        omega
      constructor
      · have hstep : flatStackF ((it.lvl, mkNode it) :: top :: rest) 1 =
            flatStackF (top :: rest) 1 ++ flatN (1 + ((top :: rest).length : ℤ)) (mkNode it) := rfl
        simp only [stateFlat, hstep]
        rw [← List.append_assoc, hflat, hlen]
        have h3 : (1 : ℤ) + (it.lvl - 1) = it.lvl := by ring
        rw [h3, flatN_mkNode]
      · simp only [List.map_cons, hcd]
        rw [countdown_cons it.lvl.toNat (by omega)]
        congr 1
        omega

theorem run_flat (rest : List TocItem) (s : RState) (k : ℕ) (hk : 1 ≤ k)
    (hc : s.stack.map Prod.fst = countdown k) (hch : ChainLe (k : ℤ) rest) :
    stateFlat (rest.foldl rstep s) = stateFlat s ++ rest.map tripleOf := by
  induction rest generalizing s k with
  | nil => simp
  | cons it more ih =>
    obtain ⟨ha, hb, hcc⟩ := hch
    have hstep := rstep_flat s it k hc ha hb
    simp only [List.foldl_cons]
    have hlv : ((it.lvl.toNat : ℤ)) = it.lvl := by omega
    have := ih (rstep s it) it.lvl.toNat (by omega) hstep.2 (by rw [hlv]; exact hcc)
    rw [this, hstep.1]
    simp [tripleOf]

/-- C6: for every well-formed flat outline (first entry at level 1, each
entry at most one level deeper than its predecessor, levels at least 1 as
the flat interchange format requires), reconstructing the nested tree with
extract_toc and flattening it by the pre-order walk that emits
(depth-as-level, title, page) reproduces the original flat list exactly. -/
theorem C6_round_trip (items : List TocItem) (h : WellFormedFlat items) :
    flatL 1 (extractToc items) = items.map tripleOf := by
  cases items with
  | nil => simp [extractToc, collapse, flatL]
  | cons it rest =>
    obtain ⟨h1, hch⟩ := h
    unfold extractToc
    have hfirst : rstep ⟨[], []⟩ it = ⟨[], [(1, mkNode it)]⟩ := by
      unfold rstep
      simp [h1, collapse]
    have hflat1 : stateFlat (rstep ⟨[], []⟩ it) = [(it.lvl, it.title, it.page)] := by
      rw [hfirst]
      simp [stateFlat, flatL, flatStackF, flatN_mkNode, h1]
    have hcd1 : (rstep ⟨[], []⟩ it).stack.map Prod.fst = countdown 1 := by
      rw [hfirst]
      simp [countdown]
    simp only [List.foldl_cons]
    have hrun := run_flat rest (rstep ⟨[], []⟩ it) 1 (by omega) hcd1 (by exact_mod_cast hch)
    rw [collapse_flat, ← stateFlat, hrun, hflat1]
    simp [tripleOf]

/-- Witness for C6 at a concrete five-entry well-formed outline. -/
theorem C6_witness :
    WellFormedFlat c6items ∧ flatL 1 (extractToc c6items) = c6items.map tripleOf := by
  have h : WellFormedFlat c6items := by
    simp [WellFormedFlat, ChainLe, c6items, mkItem]
  exact ⟨h, C6_round_trip c6items h⟩

theorem foldl_preserve {α σ : Type _} (P : σ → Prop) (f : σ → α → σ) (l : List α) (s : σ)
    (hstep : ∀ s a, P s → P (f s a)) (h : P s) : P (l.foldl f s) := by
  induction l generalizing s with
  | nil => exact h
  | cons a rest ih => exact ih (f s a) (hstep s a h)

theorem flush_congr (pn : Nat) (s1 s2 : PState) (h1 : s1.toc = s2.toc) (h2 : s1.seen = s2.seen)
    (h3 : s1.currentTitle = s2.currentTitle) (h4 : s1.currentLevel = s2.currentLevel) :
    (flushCurrent pn s1).toc = (flushCurrent pn s2).toc ∧
      (flushCurrent pn s1).seen = (flushCurrent pn s2).seen := by
  unfold flushCurrent
  rw [h3, h4]
  cases s2.currentTitle with
  | none => exact ⟨h1, h2⟩
  | some t =>
    cases s2.currentLevel with
    | none => exact ⟨h1, h2⟩
    | some lv =>
      by_cases ht : t.isEmpty
      · simp [ht, h1, h2]
      · simp only [ht, Bool.false_eq_true, if_false]
        rw [h1, h2]
        by_cases hk : (pn, lv, t) ∈ s2.seen <;> simp [hk]

theorem flush_P4 (pn : Nat) (st : PState)
    (h1 : (st.toc.map keyOf).Nodup) (h2 : ∀ e ∈ st.toc, keyOf e ∈ st.seen) :
    ((flushCurrent pn st).toc.map keyOf).Nodup ∧
      (∀ e ∈ (flushCurrent pn st).toc, keyOf e ∈ (flushCurrent pn st).seen) := by
  unfold flushCurrent
  cases st.currentTitle with
  | none => exact ⟨h1, h2⟩
  | some t =>
    cases st.currentLevel with
    | none => exact ⟨h1, h2⟩
    | some lv =>
      by_cases ht : t.isEmpty
      · simpa [ht] using ⟨h1, h2⟩
      · simp only [ht, Bool.false_eq_true, if_false]
        by_cases hk : (pn, lv, t) ∈ st.seen
        · simpa [hk] using ⟨h1, h2⟩
        · simp only [hk, if_false]
          constructor
          · simp only [List.map_append, List.map_cons, List.map_nil]
            rw [List.nodup_append]
            refine ⟨h1, by simp [keyOf], ?_⟩
            intro x hx
            simp only [List.mem_singleton, keyOf]
            intro hx2
            rw [List.mem_map] at hx
            obtain ⟨e, he, hkey⟩ := hx
            exact hk (by rw [← hx2, ← hkey]; exact h2 e he)
          · intro e he
            rcases List.mem_append.1 he with h | h
            · exact List.mem_cons_of_mem _ (h2 e h)
            · simp at h
              subst h
              simp [keyOf]

theorem processLine_toc_seen (ctx : BCtx) (pn : Nat) (st : PState) (ln : Line) :
    ((processLine ctx pn st ln).toc = st.toc ∧ (processLine ctx pn st ln).seen = st.seen) ∨
    ((processLine ctx pn st ln).toc = (flushCurrent pn st).toc ∧
      (processLine ctx pn st ln).seen = (flushCurrent pn st).seen) := by
  unfold processLine
  by_cases hsp : ln.spans.isEmpty
  · simp [hsp]
  · simp only [hsp, Bool.false_eq_true, if_false]
    by_cases hblank : (lineTextOf ln.spans).isEmpty || !(lineTextOf ln.spans).any Char.isAlpha
    · simp [hblank]
    · simp only [hblank, Bool.false_eq_true, if_false]
      set stb := if decide (listMax (lineSizes ln.spans) > st.pageBestSize) then
          { st with pageBestSize := listMax (lineSizes ln.spans),
                    pageBestText := some (lineTextOf ln.spans),
                    pageBestColor := maxKey (lineColorCounts ln.spans) }
        else st with hstb
      have hcongr : (flushCurrent pn stb).toc = (flushCurrent pn st).toc ∧
          (flushCurrent pn stb).seen = (flushCurrent pn st).seen := by
        apply flush_congr <;> rw [hstb] <;> split <;> rfl
      have hfields : stb.toc = st.toc ∧ stb.seen = st.seen ∧
          stb.currentTitle = st.currentTitle ∧ stb.currentLevel = st.currentLevel := by
        rw [hstb]; split <;> exact ⟨rfl, rfl, rfl, rfl⟩
      cases hcl : lineHeadingLevel ctx (round05 (listMax (lineSizes ln.spans)))
          (listMax (lineSizes ln.spans)) (maxKey (lineColorCounts ln.spans)) with
      | none => right; simpa using hcongr
      | some hl =>
        simp only
        by_cases hmerge : optTruthy stb.currentTitle && (stb.currentLevel == some hl)
        · left
          simp [hmerge, hfields.1, hfields.2.1]
        · right
          simp only [hmerge, Bool.false_eq_true, if_false]
          have : (flushCurrent pn { stb with pageHadHeading := true }).toc =
              (flushCurrent pn st).toc ∧
              (flushCurrent pn { stb with pageHadHeading := true }).seen =
              (flushCurrent pn st).seen := by
            apply flush_congr <;> simp [hfields.1, hfields.2.1, hfields.2.2.1, hfields.2.2.2]
          simpa using this

theorem processLine_P4 (ctx : BCtx) (pn : Nat) (st : PState) (ln : Line)
    (h1 : (st.toc.map keyOf).Nodup) (h2 : ∀ e ∈ st.toc, keyOf e ∈ st.seen) :
    (((processLine ctx pn st ln).toc.map keyOf).Nodup ∧
      ∀ e ∈ (processLine ctx pn st ln).toc, keyOf e ∈ (processLine ctx pn st ln).seen) := by
  rcases processLine_toc_seen ctx pn st ln with ⟨ha, hb⟩ | ⟨ha, hb⟩
  · rw [ha, hb]; exact ⟨h1, h2⟩
  · rw [ha, hb]; exact flush_P4 pn st h1 h2

theorem processPage_P4 (ctx : BCtx) (fph : Bool)
    (acc : List TocEntry × List (Nat × Nat × PyStr)) (pn : Nat) (pg : Option PageDict)
    (h1 : (acc.1.map keyOf).Nodup) (h2 : ∀ e ∈ acc.1, keyOf e ∈ acc.2) :
    (((processPage ctx fph acc pn pg).1.map keyOf).Nodup ∧
      ∀ e ∈ (processPage ctx fph acc pn pg).1, keyOf e ∈ (processPage ctx fph acc pn pg).2) := by
  unfold processPage
  cases pg with
  | none => exact ⟨h1, h2⟩
  | some blocks =>
    simp only
    set st0 : PState := ⟨acc.1, acc.2, 0, none, none, false, none, none⟩ with hst0
    have hP : ∀ st : PState, ((st.toc.map keyOf).Nodup ∧ ∀ e ∈ st.toc, keyOf e ∈ st.seen) →
        ∀ b : Block, (((b.lines.foldl (processLine ctx pn) st).toc.map keyOf).Nodup ∧
          ∀ e ∈ (b.lines.foldl (processLine ctx pn) st).toc,
            keyOf e ∈ (b.lines.foldl (processLine ctx pn) st).seen) := by
      intro st hst b
      exact foldl_preserve
        (fun st : PState => (st.toc.map keyOf).Nodup ∧ ∀ e ∈ st.toc, keyOf e ∈ st.seen)
        (processLine ctx pn) b.lines st
        (fun s a hs => processLine_P4 ctx pn s a hs.1 hs.2) hst
    have hfold := foldl_preserve
      (fun st : PState => (st.toc.map keyOf).Nodup ∧ ∀ e ∈ st.toc, keyOf e ∈ st.seen)
      (fun st b => b.lines.foldl (processLine ctx pn) st) blocks st0
      (fun s b hs => hP s hs b) ⟨h1, h2⟩
    set st1 := blocks.foldl (fun st b => b.lines.foldl (processLine ctx pn) st) st0 with hst1
    have hfl := flush_P4 pn st1 hfold.1 hfold.2
    set st2 := flushCurrent pn st1 with hst2
    by_cases hguard : fph && !st2.pageHadHeading && optTruthy st2.pageBestText &&
        decide (st2.pageBestSize > 0)
    · simp only [hguard, if_true]
      cases hbt : st2.pageBestText with
      | none => exact hfl
      | some t =>
        simp only
        by_cases hk : (pn, pageFallbackLevel ctx.headingSizes (round05 st2.pageBestSize), t) ∈
            st2.seen
        · simp only [hk, if_true]; exact hfl
        · simp only [hk, if_false]
          set hl := pageFallbackLevel ctx.headingSizes (round05 st2.pageBestSize) with hhl
          constructor
          · simp only [List.map_append, List.map_cons, List.map_nil]
            rw [List.nodup_append]
            refine ⟨hfl.1, by simp [keyOf], ?_⟩
            intro x hx
            simp only [List.mem_singleton, keyOf]
            intro hx2
            rw [List.mem_map] at hx
            obtain ⟨e, he, hkey⟩ := hx
            exact hk (by rw [← hx2, ← hkey]; exact hfl.2 e he)
          · intro e he
            rcases List.mem_append.1 he with h | h
            · exact List.mem_cons_of_mem _ (hfl.2 e h)
            · simp at h
              subst h
              simp [keyOf]
    · simp only [hguard, Bool.false_eq_true, if_false]
      exact hfl

/-- C4: for every document and parameter choice, no two entries of the flat
outline generated by auto_generate_toc share the same (page, level, title)
triple: the list of dedup keys is duplicate-free. -/
theorem C4_dedup (doc : Doc) (ft : ℚ) (ml : ℤ) (fph : Bool) :
    (((autoGenerateToc doc ft ml fph).toc).map keyOf).Nodup := by
  unfold autoGenerateToc
  by_cases h : (allSizes doc).isEmpty
  · simp [h]
  · simp only [h, Bool.false_eq_true, if_false]
    have := foldl_preserve
      (fun acc : List TocEntry × List (Nat × Nat × PyStr) =>
        (acc.1.map keyOf).Nodup ∧ ∀ e ∈ acc.1, keyOf e ∈ acc.2)
      (fun acc p => processPage ⟨headingSizesOf doc ft ml, bodySizeOf doc, bodyColorKeyOf doc⟩
        fph acc (p.1 + 1) p.2)
      doc.enum ([], [])
      (fun s a hs => processPage_P4 _ fph s (a.1 + 1) a.2 hs.1 hs.2) (by simp)
    exact this.1

theorem findLevel_bounds (hs : List ℚ) (s : ℚ) (i : Nat) (lv : Nat)
    (h : findLevel hs s i = some lv) : i + 1 ≤ lv ∧ lv ≤ i + hs.length := by
  induction hs generalizing i with
  | nil => simp [findLevel] at h
  | cons x rest ih =>
    rw [findLevel] at h
    by_cases hc : decide (s ≥ x) = true
    · simp only [hc, if_true, Option.some.injEq] at h
      simp only [List.length_cons]
      omega
    · simp only [hc, Bool.false_eq_true, if_false] at h
      have := ih (i + 1) h
      simp only [List.length_cons]
      omega

theorem findLevel09_bounds (hs : List ℚ) (s : ℚ) (i : Nat) (lv : Nat)
    (h : findLevel09 hs s i = some lv) : i + 1 ≤ lv ∧ lv ≤ i + hs.length := by
  induction hs generalizing i with
  | nil => simp [findLevel09] at h
  | cons x rest ih =>
    rw [findLevel09] at h
    by_cases hc : decide (s ≥ x * (9/10)) = true
    · simp only [hc, if_true, Option.some.injEq] at h
      simp only [List.length_cons]
      omega
    · simp only [hc, Bool.false_eq_true, if_false] at h
      have := ih (i + 1) h
      simp only [List.length_cons]
      omega

theorem colorRuleLevel_bounds (hs : List ℚ) (ms : ℚ) :
    1 ≤ colorRuleLevel hs ms ∧ colorRuleLevel hs ms ≤ max 1 hs.length := by
  unfold colorRuleLevel
  by_cases he : hs.isEmpty
  · simp [he]
  · simp only [he, Bool.false_eq_true, if_false]
    cases hf : findLevel09 hs ms 0 with
    | none =>
      simp only [Option.getD_none]
      have : hs ≠ [] := by simpa [List.isEmpty_iff] using he
      have : 1 ≤ hs.length := List.length_pos.2 this
      omega
    | some lv =>
      simp only [Option.getD_some]
      have := findLevel09_bounds hs ms 0 lv hf
      exact ⟨by omega, le_trans (by omega) (le_max_right 1 hs.length)⟩

theorem pageFallbackLevel_bounds (hs : List ℚ) (s : ℚ) :
    1 ≤ pageFallbackLevel hs s ∧ pageFallbackLevel hs s ≤ max 1 hs.length := by
  unfold pageFallbackLevel
  cases hf : findLevel hs s 0 with
  | none =>
    simp only [Option.getD_none]
    by_cases he : hs.isEmpty
    · simp [he]
    · simp only [he, Bool.false_eq_true, if_false]
      have : hs ≠ [] := by simpa [List.isEmpty_iff] using he
      have : 1 ≤ hs.length := List.length_pos.2 this
      omega
  | some lv =>
    simp only [Option.getD_some]
    have := findLevel_bounds hs s 0 lv hf
    exact ⟨by omega, le_trans (by omega) (le_max_right 1 hs.length)⟩

theorem lineHeadingLevel_bounds (ctx : BCtx) (sr ms : ℚ) (lck : Option ColorKey) (hl : Nat)
    (h : lineHeadingLevel ctx sr ms lck = some hl) :
    1 ≤ hl ∧ hl ≤ max 1 ctx.headingSizes.length := by
  unfold lineHeadingLevel at h
  cases hf : findLevel ctx.headingSizes sr 0 with
  | some lv =>
    rw [hf] at h
    simp only [Option.some.injEq] at h
    subst h
    have := findLevel_bounds ctx.headingSizes sr 0 lv hf
    omega
  | none =>
    rw [hf] at h
    by_cases hc : (ctx.bodyColorKey.isSome && lck.isSome && decide (lck ≠ ctx.bodyColorKey)) &&
        decide (ms ≥ ctx.bodySize * (9/10))
    · simp only [hc, if_true, Option.some.injEq] at h
      subst h
      exact colorRuleLevel_bounds ctx.headingSizes ms
    · rw [if_neg hc] at h
      exact absurd h (by simp)

theorem headingSizesOf_length (doc : Doc) (ft : ℚ) (ml : ℤ) (hml : 0 ≤ ml) :
    ((headingSizesOf doc ft ml).length : ℤ) ≤ ml := by
  unfold headingSizesOf pyTake
  simp only [hml, if_true, List.length_take]
  omega

theorem flush_P5 (ml : ℤ) (pn : Nat) (st : PState)
    (h1 : ∀ e ∈ st.toc, 1 ≤ e.level ∧ (e.level : ℤ) ≤ ml)
    (h2 : ∀ lv, st.currentLevel = some lv → 1 ≤ lv ∧ (lv : ℤ) ≤ ml) :
    (∀ e ∈ (flushCurrent pn st).toc, 1 ≤ e.level ∧ (e.level : ℤ) ≤ ml) ∧
      (flushCurrent pn st).currentLevel = none := by
  unfold flushCurrent
  cases hct : st.currentTitle with
  | none => exact ⟨h1, rfl⟩
  | some t =>
    cases hcl : st.currentLevel with
    | none => exact ⟨h1, rfl⟩
    | some lv =>
      refine ⟨?_, ?_⟩
      · by_cases ht : t.isEmpty
        · simp only [ht, if_true]
          exact h1
        · simp only [ht, Bool.false_eq_true, if_false]
          by_cases hk : (pn, lv, t) ∈ st.seen
          · simp only [hk, if_true]
            exact h1
          · simp only [hk, if_false]
            intro e he
            rcases List.mem_append.1 he with h | h
            · exact h1 e h
            · simp at h
              subst h
              exact h2 lv hcl
      · by_cases ht : t.isEmpty
        · simp [ht]
        · simp only [ht, Bool.false_eq_true, if_false]
          by_cases hk : (pn, lv, t) ∈ st.seen <;> simp [hk]

theorem processLine_P5 (ctx : BCtx) (pn : Nat) (st : PState) (ln : Line) (ml : ℤ)
    (hml : 1 ≤ ml) (hlen : (ctx.headingSizes.length : ℤ) ≤ ml)
    (h1 : ∀ e ∈ st.toc, 1 ≤ e.level ∧ (e.level : ℤ) ≤ ml)
    (h2 : ∀ lv, st.currentLevel = some lv → 1 ≤ lv ∧ (lv : ℤ) ≤ ml) :
    (∀ e ∈ (processLine ctx pn st ln).toc, 1 ≤ e.level ∧ (e.level : ℤ) ≤ ml) ∧
      (∀ lv, (processLine ctx pn st ln).currentLevel = some lv →
        1 ≤ lv ∧ (lv : ℤ) ≤ ml) := by
  have hnone : ∀ s : PState, s.currentLevel = none →
      (∀ lv, s.currentLevel = some lv → 1 ≤ lv ∧ (lv : ℤ) ≤ ml) := by
    intro s hs lv hlv
    rw [hs] at hlv
    exact absurd hlv (by simp)
  unfold processLine
  by_cases hsp : ln.spans.isEmpty
  · simp only [hsp, if_true]
    exact ⟨h1, h2⟩
  · simp only [hsp, Bool.false_eq_true, if_false]
    by_cases hblank : (lineTextOf ln.spans).isEmpty || !(lineTextOf ln.spans).any Char.isAlpha
    · simp only [hblank, if_true]
      have := flush_P5 ml pn st h1 h2
      exact ⟨this.1, hnone _ this.2⟩
    · simp only [hblank, Bool.false_eq_true, if_false]
      set stb := if decide (listMax (lineSizes ln.spans) > st.pageBestSize) then
          { st with pageBestSize := listMax (lineSizes ln.spans),
                    pageBestText := some (lineTextOf ln.spans),
                    pageBestColor := maxKey (lineColorCounts ln.spans) }
        else st with hstb
      have hb1 : stb.toc = st.toc ∧ stb.currentLevel = st.currentLevel := by
        rw [hstb]; split <;> exact ⟨rfl, rfl⟩
      have hb2 : ∀ e ∈ stb.toc, 1 ≤ e.level ∧ (e.level : ℤ) ≤ ml := by
        rw [hb1.1]; exact h1
      have hb3 : ∀ lv, stb.currentLevel = some lv → 1 ≤ lv ∧ (lv : ℤ) ≤ ml := by
        rw [hb1.2]; exact h2
      cases hcl : lineHeadingLevel ctx (round05 (listMax (lineSizes ln.spans)))
          (listMax (lineSizes ln.spans)) (maxKey (lineColorCounts ln.spans)) with
      | none =>
        simp only
        have := flush_P5 ml pn stb hb2 hb3
        exact ⟨this.1, hnone _ this.2⟩
      | some hl =>
        simp only
        have hhl : 1 ≤ hl ∧ (hl : ℤ) ≤ ml := by
          have hb := lineHeadingLevel_bounds ctx _ _ _ hl hcl
          have hmax : ((max 1 ctx.headingSizes.length : ℕ) : ℤ) ≤ ml := by
            rcases max_choice 1 ctx.headingSizes.length with h | h <;> rw [h] <;> omega
          refine ⟨hb.1, le_trans ?_ hmax⟩
          exact_mod_cast hb.2
        by_cases hmerge : optTruthy stb.currentTitle && (stb.currentLevel == some hl)
        · simp only [hmerge, if_true]
          refine ⟨hb2, ?_⟩
          intro lv hlv
          exact hb3 lv hlv
        · simp only [hmerge, Bool.false_eq_true, if_false]
          have hb2x : ∀ e ∈ ({ stb with pageHadHeading := true } : PState).toc,
              1 ≤ e.level ∧ (e.level : ℤ) ≤ ml := hb2
          have hb3x : ∀ lv, ({ stb with pageHadHeading := true } : PState).currentLevel =
              some lv → 1 ≤ lv ∧ (lv : ℤ) ≤ ml := hb3
          have hfl := flush_P5 ml pn { stb with pageHadHeading := true } hb2x hb3x
          refine ⟨hfl.1, ?_⟩
          intro lv hlv
          have hveq : hl = lv := Option.some.inj hlv
          rw [← hveq]
          exact hhl

theorem processPage_P5 (ctx : BCtx) (fph : Bool)
    (acc : List TocEntry × List (Nat × Nat × PyStr)) (pn : Nat) (pg : Option PageDict) (ml : ℤ)
    (hml : 1 ≤ ml) (hlen : (ctx.headingSizes.length : ℤ) ≤ ml)
    (h1 : ∀ e ∈ acc.1, 1 ≤ e.level ∧ (e.level : ℤ) ≤ ml) :
    ∀ e ∈ (processPage ctx fph acc pn pg).1, 1 ≤ e.level ∧ (e.level : ℤ) ≤ ml := by
  unfold processPage
  cases pg with
  | none => exact h1
  | some blocks =>
    simp only
    set st0 : PState := ⟨acc.1, acc.2, 0, none, none, false, none, none⟩ with hst0
    have hfold := foldl_preserve
      (fun st : PState => (∀ e ∈ st.toc, 1 ≤ e.level ∧ (e.level : ℤ) ≤ ml) ∧
        ∀ lv, st.currentLevel = some lv → 1 ≤ lv ∧ (lv : ℤ) ≤ ml)
      (fun st b => b.lines.foldl (processLine ctx pn) st) blocks st0
      (fun s b hs => foldl_preserve
        (fun st : PState => (∀ e ∈ st.toc, 1 ≤ e.level ∧ (e.level : ℤ) ≤ ml) ∧
          ∀ lv, st.currentLevel = some lv → 1 ≤ lv ∧ (lv : ℤ) ≤ ml)
        (processLine ctx pn) b.lines s
        (fun s2 a2 hs2 => processLine_P5 ctx pn s2 a2 ml hml hlen hs2.1 hs2.2) hs)
      ⟨h1, by intro lv hlv; exact absurd hlv (by simp [hst0])⟩
    set st1 := blocks.foldl (fun st b => b.lines.foldl (processLine ctx pn) st) st0 with hst1
    have hfl := flush_P5 ml pn st1 hfold.1 hfold.2
    set st2 := flushCurrent pn st1 with hst2
    by_cases hguard : fph && !st2.pageHadHeading && optTruthy st2.pageBestText &&
        decide (st2.pageBestSize > 0)
    · simp only [hguard, if_true]
      cases hbt : st2.pageBestText with
      | none => exact hfl.1
      | some t =>
        simp only
        by_cases hk : (pn, pageFallbackLevel ctx.headingSizes (round05 st2.pageBestSize), t) ∈
            st2.seen
        · simp only [hk, if_true]
          exact hfl.1
        · simp only [hk, if_false]
          intro e he
          rcases List.mem_append.1 he with h | h
          · exact hfl.1 e h
          · simp at h
            subst h
            have hbnd := pageFallbackLevel_bounds ctx.headingSizes (round05 st2.pageBestSize)
            have hmax : ((max 1 ctx.headingSizes.length : ℕ) : ℤ) ≤ ml := by
              rcases max_choice 1 ctx.headingSizes.length with h | h <;> rw [h] <;> omega
            refine ⟨hbnd.1, le_trans ?_ hmax⟩
            exact_mod_cast hbnd.2
    · simp only [hguard, Bool.false_eq_true, if_false]
      exact hfl.1

/-- C5 counterexample input check is below; this is the amended level-bound
theorem: for every document, font threshold and force flag, and every
max_levels of at least 1, every entry of the generated flat outline has
1 <= level <= max_levels, including entries from the color fallback and the
per-page fallback. -/
theorem C5_level_bound_amended (doc : Doc) (ft : ℚ) (ml : ℤ) (fph : Bool) (hml : 1 ≤ ml) :
    ∀ e ∈ (autoGenerateToc doc ft ml fph).toc, 1 ≤ e.level ∧ (e.level : ℤ) ≤ ml := by
  unfold autoGenerateToc
  by_cases h : (allSizes doc).isEmpty
  · simp [h]
  · simp only [h, Bool.false_eq_true, if_false]
    have hlen := headingSizesOf_length doc ft ml (by omega)
    exact foldl_preserve
      (fun acc : List TocEntry × List (Nat × Nat × PyStr) =>
        ∀ e ∈ acc.1, 1 ≤ e.level ∧ (e.level : ℤ) ≤ ml)
      (fun acc p => processPage ⟨headingSizesOf doc ft ml, bodySizeOf doc, bodyColorKeyOf doc⟩
        fph acc (p.1 + 1) p.2)
      doc.enum ([], [])
      (fun s a hs => processPage_P5 _ fph s (a.1 + 1) a.2 ml hml hlen hs) (by simp)

theorem r05_10 : round05 10 = 10 := by norm_num [round05, pyRound]

theorem r05_16 : round05 16 = 16 := by norm_num [round05, pyRound]

theorem r05_20 : round05 20 = 20 := by norm_num [round05, pyRound]

theorem c5_allSizes : allSizes c5doc = [10] := by decide

theorem c5_body : bodySizeOf c5doc = 10 := by decide

theorem c5_unique : uniqueSizesOf c5doc = [10] := by
  simp only [uniqueSizesOf, c5_allSizes, List.map_cons, List.map_nil, r05_10]
  decide

theorem c5_table0 : headingSizesOf c5doc 14 0 = [] := by
  simp only [headingSizesOf, c5_unique, c5_body]
  decide

theorem c5_bck : bodyColorKeyOf c5doc = some 0 := by
  have h10 : |(10 : ℚ) - 10| ≤ 1 := by norm_num
  simp only [bodyColorKeyOf, c5_body]
  simp +decide [bodyColorCountsOf, c5doc, oneSpanLine, h10, pyStrip, bump, maxKey]

theorem c5_toc0 : (autoGenerateToc c5doc 14 0 true).toc = [⟨1, "Title".toList, 1⟩] := by
  unfold autoGenerateToc
  rw [if_neg (by decide)]
  simp only [c5_table0, c5_body, c5_bck]
  decide

theorem c1_allSizes : allSizes c1doc = [20, 16, 10, 10, 10] := by decide

theorem c1_body : bodySizeOf c1doc = 10 := by decide

theorem c1_unique : uniqueSizesOf c1doc = [10, 16, 20] := by
  simp only [uniqueSizesOf, c1_allSizes, List.map_cons, List.map_nil, r05_10, r05_16, r05_20]
  decide

theorem c1_table : headingSizesOf c1doc 14 3 = [20, 16] := by
  simp only [headingSizesOf, c1_unique, c1_body]
  decide

theorem c1_bck : bodyColorKeyOf c1doc = some 0 := by
  have h10 : |(10 : ℚ) - 10| ≤ 1 := by norm_num
  have h16 : ¬(|(16 : ℚ) - 10| ≤ 1) := by norm_num
  have h20 : ¬(|(20 : ℚ) - 10| ≤ 1) := by norm_num
  simp only [bodyColorKeyOf, c1_body]
  simp +decide [bodyColorCountsOf, c1doc, oneSpanLine, h10, h16, h20, pyStrip, bump, maxKey]

theorem c1_toc : (autoGenerateToc c1doc 14 3 true).toc =
    [⟨1, "Chap".toList, 1⟩, ⟨2, "Sec".toList, 1⟩] := by
  unfold autoGenerateToc
  rw [if_neg (by decide)]
  simp only [c1_table, c1_body, c1_bck]
  simp +decide [processPage, processLine, flushCurrent, lineHeadingLevel, findLevel,
    lineTextOf, lineSizes, listMax, lineColorCounts, lineTextParts, c1doc, oneSpanLine,
    r05_10, r05_16, r05_20, bump, maxKey, joinSpace, pyStrip, optTruthy,
    pageFallbackLevel, colorRuleLevel, keyOf]

theorem c7_allSizes : allSizes c7doc = [20, 20, 10, 10, 10] := by decide

theorem c7_body : bodySizeOf c7doc = 10 := by decide

theorem c7_unique : uniqueSizesOf c7doc = [10, 20] := by
  simp only [uniqueSizesOf, c7_allSizes, List.map_cons, List.map_nil, r05_10, r05_20]
  decide

theorem c7_table : headingSizesOf c7doc 14 3 = [20] := by
  simp only [headingSizesOf, c7_unique, c7_body]
  decide

theorem c7_bck : bodyColorKeyOf c7doc = some 0 := by
  have h10 : |(10 : ℚ) - 10| ≤ 1 := by norm_num
  have h20 : ¬(|(20 : ℚ) - 10| ≤ 1) := by norm_num
  simp only [bodyColorKeyOf, c7_body]
  simp +decide [bodyColorCountsOf, c7doc, oneSpanLine, h10, h20, pyStrip, bump, maxKey]

theorem c7_toc : (autoGenerateToc c7doc 14 3 true).toc = [⟨1, "Chapter One".toList, 1⟩] := by
  unfold autoGenerateToc
  rw [if_neg (by decide)]
  simp only [c7_table, c7_body, c7_bck]
  simp +decide [processPage, processLine, flushCurrent, lineHeadingLevel, findLevel,
    lineTextOf, lineSizes, listMax, lineColorCounts, lineTextParts, c7doc, oneSpanLine,
    r05_10, r05_20, bump, maxKey, joinSpace, pyStrip, optTruthy,
    pageFallbackLevel, colorRuleLevel, keyOf]

/-- C5 counterexample: with the caller-supplied max_levels = 0, the per-page
fallback still produces a level-1 entry, violating level <= max_levels: the
level-bound claim fails for this caller-supplied max_levels. -/
theorem C5_counterexample :
    (autoGenerateToc c5doc 14 0 true).toc = [⟨1, "Title".toList, 1⟩] ∧
    ¬(∀ e ∈ (autoGenerateToc c5doc 14 0 true).toc, 1 ≤ e.level ∧ (e.level : ℤ) ≤ 0) := by
  refine ⟨c5_toc0, ?_⟩
  rw [c5_toc0]
  intro h
  have := h ⟨1, "Title".toList, 1⟩ (by simp)
  omega

/-- Witness for the amended C5 at a concrete document and max_levels = 3. -/
theorem C5_witness :
    (1 ≤ (3 : ℤ)) ∧
      ∀ e ∈ (autoGenerateToc c1doc 14 3 true).toc, 1 ≤ e.level ∧ (e.level : ℤ) ≤ 3 :=
  ⟨by decide, C5_level_bound_amended c1doc 14 3 true (by decide)⟩

theorem findLevel_shift (t : List ℚ) (s : ℚ) (i : Nat) :
    findLevel t s i = (findLevel t s 0).map (fun l => l + i) := by
  induction t generalizing i with
  | nil => simp [findLevel]
  | cons x rest ih =>
    rw [findLevel]
    conv_rhs => rw [findLevel]
    by_cases hc : decide (s ≥ x) = true
    · simp [hc, Nat.add_comm]
    · simp only [hc, Bool.false_eq_true, if_false]
      rw [ih (i + 1), ih 1]
      cases findLevel rest s 0 with
      | none => simp
      | some lv =>
        simp
        omega

theorem foldl_max_of_le (x : ℚ) (l : List ℚ) (h : ∀ y ∈ l, y ≤ x) : l.foldl max x = x := by
  induction l generalizing x with
  | nil => rfl
  | cons y ys ih =>
    simp only [List.foldl_cons]
    rw [max_eq_left (h y (by simp))]
    exact ih x (fun z hz => h z (by simp [hz]))

/-- C1 amended: on a strictly descending table, as the mapper produces, the
size rule of the outline builder assigns the level mapped to the LARGEST
table size that the rounded dominant size meets or exceeds (the shallowest
qualifying level, the first match scanning from the level-1 size downward);
if no table size is met it assigns no level. -/
theorem C1_size_rule_amended (t : List ℚ) (s : ℚ) (hsort : t.Sorted (· > ·)) :
    findLevel t s 0 = amendedSizeRuleLevel t s := by
  induction t with
  | nil => simp [findLevel, amendedSizeRuleLevel, largestQualifying]
  | cons x rest ih =>
    have hsort2 : rest.Sorted (· > ·) := hsort.of_cons
    have hlt : ∀ y ∈ rest, y < x := fun y hy => List.rel_of_sorted_cons hsort y hy
    by_cases hc : decide (s ≥ x) = true
    · rw [findLevel, if_pos hc]
      unfold amendedSizeRuleLevel largestQualifying
      simp only [List.filter_cons, hc, if_true]
      have hmax : (x :: (rest.filter (fun h => decide (s ≥ h)))).max? =
          some ((rest.filter (fun h => decide (s ≥ h))).foldl max x) := rfl
      rw [hmax, foldl_max_of_le x _ (fun y hy => le_of_lt (hlt y (List.mem_of_mem_filter hy)))]
      simp [List.indexOf_cons_self]
    · rw [findLevel, if_neg hc]
      rw [findLevel_shift, ih hsort2]
      unfold amendedSizeRuleLevel largestQualifying
      simp only [List.filter_cons, hc, Bool.false_eq_true, if_false]
      cases hm : (rest.filter (fun h => decide (s ≥ h))).max? with
      | none => simp
      | some m =>
        have hmem : m ∈ rest.filter (fun h => decide (s ≥ h)) :=
          List.max?_mem (fun a b => max_choice a b) hm
        have hne : x ≠ m := by
          have := hlt m (List.mem_of_mem_filter hmem)
          exact ne_of_gt this
        simp only [Option.map_some', Option.map_map, Function.comp_apply, Option.some.injEq]
        rw [List.indexOf_cons_ne rest hne]

/-- C1 counterexample: with the heading table 20 at level 1 and 16 at level
2, a line of rounded dominant size 20 meets both table sizes; the smallest
qualifying size is 16, so the claim as stated assigns level 2, but the code
scans from the largest size and assigns level 1, as the full pipeline on
c1doc confirms. -/
theorem C1_counterexample :
    headingSizesOf c1doc 14 3 = [20, 16] ∧
    claimSizeRuleLevel [20, 16] (round05 20) = some 2 ∧
    findLevel [20, 16] (round05 20) 0 = some 1 ∧
    (autoGenerateToc c1doc 14 3 true).toc.head? = some ⟨1, "Chap".toList, 1⟩ ∧
    (some 1 : Option Nat) ≠ some 2 := by
  refine ⟨c1_table, ?_, ?_, by rw [c1_toc]; rfl, by decide⟩
  · rw [r05_20]
    decide
  · rw [r05_20]
    decide

/-- Witness for the amended C1 at the table [20, 16] and size 18. -/
theorem C1_witness :
    ([20, 16] : List ℚ).Sorted (· > ·) ∧
      findLevel [20, 16] 18 0 = amendedSizeRuleLevel [20, 16] 18 :=
  ⟨by decide, C1_size_rule_amended [20, 16] 18 (by decide)⟩

/-- C7: when a non-blank line classifies to the same heading level as the
pending heading run, the builder emits no entry and extends the pending
title with the line's text joined by a single space; and on the concrete
page-1 document whose two consecutive size-20 lines read Chapter and One
over a size-10 body, the generated outline is the single merged entry
(1, Chapter One, 1), not one entry per line. -/
theorem C7_merge :
    (∀ (ctx : BCtx) (pn : Nat) (st : PState) (ln : Line) (t : PyStr) (hl : Nat),
      ln.spans.isEmpty = false →
      ((lineTextOf ln.spans).isEmpty || !(lineTextOf ln.spans).any Char.isAlpha) = false →
      lineHeadingLevel ctx (round05 (listMax (lineSizes ln.spans)))
        (listMax (lineSizes ln.spans)) (maxKey (lineColorCounts ln.spans)) = some hl →
      st.currentTitle = some t → t.isEmpty = false → st.currentLevel = some hl →
      (processLine ctx pn st ln).toc = st.toc ∧
        (processLine ctx pn st ln).currentTitle = some (t ++ ' ' :: lineTextOf ln.spans) ∧
        (processLine ctx pn st ln).currentLevel = some hl) ∧
    (autoGenerateToc c7doc 14 3 true).toc = [⟨1, "Chapter One".toList, 1⟩] := by
  constructor
  · intro ctx pn st ln t hl hsp hblank hlv hct ht hclv
    unfold processLine
    rw [if_neg (by simp [hsp]), if_neg (by simp [hblank])]
    set stb := if decide (listMax (lineSizes ln.spans) > st.pageBestSize) then
        { st with pageBestSize := listMax (lineSizes ln.spans),
                  pageBestText := some (lineTextOf ln.spans),
                  pageBestColor := maxKey (lineColorCounts ln.spans) }
      else st with hstb
    have hfields : stb.toc = st.toc ∧ stb.currentTitle = st.currentTitle ∧
        stb.currentLevel = st.currentLevel := by
      rw [hstb]; split <;> exact ⟨rfl, rfl, rfl⟩
    simp only [hlv]
    have hcond : (optTruthy ({ stb with pageHadHeading := true } : PState).currentTitle &&
        (({ stb with pageHadHeading := true } : PState).currentLevel == some hl)) = true := by
      have h1 : ({ stb with pageHadHeading := true } : PState).currentTitle = some t := by
        rw [show ({ stb with pageHadHeading := true } : PState).currentTitle =
          stb.currentTitle from rfl, hfields.2.1, hct]
      have h2 : ({ stb with pageHadHeading := true } : PState).currentLevel = some hl := by
        rw [show ({ stb with pageHadHeading := true } : PState).currentLevel =
          stb.currentLevel from rfl, hfields.2.2, hclv]
      rw [h1, h2]
      simp [optTruthy, ht]
    rw [if_pos hcond]
    refine ⟨?_, ?_, ?_⟩
    · split <;> rfl
    · split <;> simp [hct]
    · split <;> exact hclv
  · exact c7_toc

/-- Witness for the general part of C7: a size-20 line reading One extends
the pending level-1 heading Chapter into Chapter One without emitting an
entry. -/
theorem C7_witness :
    (processLine c7ctx 1 c7st c7line).toc = c7st.toc ∧
      (processLine c7ctx 1 c7st c7line).currentTitle = some ("Chapter One".toList) ∧
      (processLine c7ctx 1 c7st c7line).currentLevel = some 1 := by
  have hlv : lineHeadingLevel c7ctx (round05 (listMax (lineSizes c7line.spans)))
      (listMax (lineSizes c7line.spans)) (maxKey (lineColorCounts c7line.spans)) = some 1 := by
    simp +decide [lineHeadingLevel, findLevel, lineSizes, listMax, c7line, c7ctx, r05_20]
  have h := C7_merge.1 c7ctx 1 c7st c7line ("Chapter".toList) 1 (by decide) (by decide)
    hlv rfl (by decide) rfl
  refine ⟨h.1, ?_, h.2.2⟩
  rw [h.2.1]
  decide

theorem uniqueSizesOf_sorted (doc : Doc) : (uniqueSizesOf doc).Sorted (· ≤ ·) :=
  List.sorted_insertionSort _ _

theorem uniqueSizesOf_ne_nil (doc : Doc) (h : allSizes doc ≠ []) : uniqueSizesOf doc ≠ [] := by
  unfold uniqueSizesOf
  intro hcon
  have hperm := List.perm_insertionSort (· ≤ ·) (((allSizes doc).map round05).dedup)
  rw [hcon] at hperm
  have hd : ((allSizes doc).map round05).dedup = [] := hperm.symm.eq_nil
  rw [List.dedup_eq_nil] at hd
  exact h (List.map_eq_nil_iff.1 hd)

/-- C8 counterexample: the single size-10 document has a usable size, no
rounded size exceeds threshold = max(body, 14), yet with the caller-supplied
max_levels = 0 the heading table is empty: the non-emptiness guarantee fails
for this max_levels. -/
theorem C8_counterexample :
    allSizes c5doc ≠ [] ∧
    (uniqueSizesOf c5doc).filter (fun s => decide (s > max (bodySizeOf c5doc) 14)) = [] ∧
    headingSizesOf c5doc 14 0 = [] := by
  refine ⟨?_, ?_, c5_table0⟩
  · rw [c5_allSizes]
    simp
  · rw [c5_unique, c5_body]
    decide

/-- C8 amended: when no distinct rounded size exceeds
threshold = max(body_size, font_threshold) and max_levels is at least 1, the
heading table is built from the max_levels largest rounded sizes observed in
the document (the tail of the ascending distinct-size list, in descending
order), and it is non-empty whenever at least one size was collected. -/
theorem C8_mapper_fallback_amended (doc : Doc) (ft : ℚ) (ml : ℤ) (hml : 1 ≤ ml)
    (hne : allSizes doc ≠ [])
    (hnone : (uniqueSizesOf doc).filter (fun s => decide (s > max (bodySizeOf doc) ft)) = []) :
    headingSizesOf doc ft ml ≠ [] ∧
    headingSizesOf doc ft ml =
      ((uniqueSizesOf doc).drop ((uniqueSizesOf doc).length - ml.toNat)).reverse := by
  have hun := uniqueSizesOf_ne_nil doc hne
  have hulen : 1 ≤ (uniqueSizesOf doc).length := List.length_pos.2 hun
  have hdrop : pyDropFrom (-ml) (uniqueSizesOf doc) =
      (uniqueSizesOf doc).drop ((uniqueSizesOf doc).length - ml.toNat) := by
    unfold pyDropFrom
    rw [if_neg (by omega)]
    congr 1
    omega
  set D := (uniqueSizesOf doc).drop ((uniqueSizesOf doc).length - ml.toNat) with hD
  have hDlen : D.length = (uniqueSizesOf doc).length -
      ((uniqueSizesOf doc).length - ml.toNat) := by
    rw [hD, List.length_drop]
  have hDpos : 1 ≤ D.length := by
    rw [hDlen]
    omega
  have hDsorted : D.Sorted (· ≤ ·) :=
    List.Pairwise.sublist (List.drop_sublist _ _) (uniqueSizesOf_sorted doc)
  have hsortD : D.insertionSort (· ≥ ·) = D.reverse := by
    apply List.eq_of_perm_of_sorted
      ((List.perm_insertionSort _ D).trans D.reverse_perm.symm)
      (List.sorted_insertionSort _ D)
    rw [List.Sorted, List.pairwise_reverse]
    exact hDsorted
  have hmain : headingSizesOf doc ft ml = D.reverse := by
    unfold headingSizesOf
    simp only [hnone, List.isEmpty_nil, if_true]
    rw [hdrop, hsortD]
    unfold pyTake
    rw [if_pos (by omega)]
    apply List.take_of_length_le
    rw [List.length_reverse, hDlen]
    omega
  refine ⟨?_, hmain⟩
  rw [hmain]
  intro hcon
  have hlen2 := congrArg List.length hcon
  rw [List.length_reverse] at hlen2
  simp only [List.length_nil] at hlen2
  omega

/-- Witness for the amended C8 at the single size-10 document and
max_levels = 3: the fallback table is non-empty. -/
theorem C8_witness :
    (1 ≤ (3 : ℤ)) ∧ allSizes c5doc ≠ [] ∧
    (uniqueSizesOf c5doc).filter (fun s => decide (s > max (bodySizeOf c5doc) 14)) = [] ∧
    headingSizesOf c5doc 14 3 ≠ [] := by
  have h2 : allSizes c5doc ≠ [] := by
    rw [c5_allSizes]
    simp
  have h3 : (uniqueSizesOf c5doc).filter (fun s => decide (s > max (bodySizeOf c5doc) 14)) = [] := by
    rw [c5_unique, c5_body]
    decide
  exact ⟨by decide, h2, h3, (C8_mapper_fallback_amended c5doc 14 3 (by decide) h2 h3).1⟩
